import Mathlib

/-!
Verification of the `go-lexer` scanning engine.

The Go sources are shallowly embedded as follows:

* Go strings are byte lists (`List Nat`, each entry < 256); Go byte offsets
  (`Start`/`Position` of the lexer) are `Nat` indices into that list.
* Go runes (`rune` = `int32`) are `Int`; the library's sentinels
  `EOFToken = -1` and `ErrorToken = 0` keep their values.
* `utf8.DecodeRuneInString` and `utf8.RuneLen` are embedded as `decodeRune`
  and `runeLen`, following the stdlib decoder (accept ranges for the first
  and continuation bytes, `RuneError` = `0xFFFD` with size 1 on malformed
  input, short input included).
* The token channel `l.Tokens` is embedded as the list of tokens published
  so far, in order; `Emit` appends to it.  Channel capacity is the `Nat`
  computed by `RunLexer` / `RunLexerSync`.
* Go slice expressions panic when an index is out of range; operations that
  can panic (`IgnoreCharacter`) therefore return `Option`.
* `L.Error` either returns the updated lexer together with the exact string
  passed to the registered handler, or `panicked` when no handler is
  registered (a Go `panic(e)`).
* The `StartState`/`StateRecord` fields of `L` hold caller-supplied state
  functions (`StateFunc = func(*L) StateFunc`, a negatively recursive type);
  no claim below concerns them and they are omitted from the state record.
-/

namespace GoLexer

/-- Go `TokenType` constant `EOFToken = -1`. -/
def EOFToken : Int := -1

/-- Go `TokenType` constant `ErrorToken = 0`. -/
def ErrorToken : Int := 0

/-- Go `utf8.RuneError` (`U+FFFD`). -/
def RuneError : Int := 0xFFFD

/-- Embedding of Go `utf8.RuneLen`: the number of bytes of the UTF-8
encoding of a rune, `-1` for runes that have no encoding (negative values,
surrogates, values above `MaxRune`). -/
def runeLen (r : Int) : Int :=
  if r < 0 then -1
  else if r ≤ 0x7F then 1
  else if r ≤ 0x7FF then 2
  else if 0xD800 ≤ r ∧ r ≤ 0xDFFF then -1
  else if r ≤ 0xFFFF then 3
  else if r ≤ 0x10FFFF then 4
  else -1

/-- Embedding of Go `utf8.DecodeRuneInString`: decodes the first rune of a
byte sequence, returning the rune and the number of bytes consumed.
Malformed input (bad leading byte, continuation byte outside the accept
range of the leading byte, or short input) yields `(RuneError, 1)`; the
empty string yields `(RuneError, 0)`. -/
def decodeRune : List Nat → Int × Nat
  | [] => (RuneError, 0)
  | b0 :: rest =>
    if b0 < 0x80 then ((b0 : Int), 1)
    else if b0 < 0xC2 then (RuneError, 1)
    else if b0 < 0xE0 then
      match rest with
      | [] => (RuneError, 1)
      | b1 :: _ =>
        if 0x80 ≤ b1 ∧ b1 ≤ 0xBF then
          (((b0 % 32) * 64 + b1 % 64 : Nat), 2)
        else (RuneError, 1)
    else if b0 < 0xF0 then
      match rest with
      | [] => (RuneError, 1)
      | b1 :: rest2 =>
        if (if b0 = 0xE0 then 0xA0 else 0x80) ≤ b1 ∧
            b1 ≤ (if b0 = 0xED then 0x9F else 0xBF) then
          match rest2 with
          | [] => (RuneError, 1)
          | b2 :: _ =>
            if 0x80 ≤ b2 ∧ b2 ≤ 0xBF then
              (((b0 % 16) * 4096 + (b1 % 64) * 64 + b2 % 64 : Nat), 3)
            else (RuneError, 1)
        else (RuneError, 1)
    else if b0 ≤ 0xF4 then
      match rest with
      | [] => (RuneError, 1)
      | b1 :: rest2 =>
        if (if b0 = 0xF0 then 0x90 else 0x80) ≤ b1 ∧
            b1 ≤ (if b0 = 0xF4 then 0x8F else 0xBF) then
          match rest2 with
          | [] => (RuneError, 1)
          | b2 :: rest3 =>
            if 0x80 ≤ b2 ∧ b2 ≤ 0xBF then
              match rest3 with
              | [] => (RuneError, 1)
              | b3 :: _ =>
                if 0x80 ≤ b3 ∧ b3 ≤ 0xBF then
                  (((b0 % 8) * 262144 + (b1 % 64) * 4096 + (b2 % 64) * 64 +
                      b3 % 64 : Nat), 4)
                else (RuneError, 1)
            else (RuneError, 1)
        else (RuneError, 1)
    else (RuneError, 1)

/-- The UTF-8 encoding of a Unicode scalar value (used to describe inputs
that are valid UTF-8; the Go engine itself only decodes). -/
def encodeChar (n : Nat) : List Nat :=
  if n < 0x80 then [n]
  else if n < 0x800 then [0xC0 + n / 64, 0x80 + n % 64]
  else if n < 0x10000 then
    [0xE0 + n / 4096, 0x80 + (n / 64) % 64, 0x80 + n % 64]
  else
    [0xF0 + n / 262144, 0x80 + (n / 4096) % 64, 0x80 + (n / 64) % 64,
      0x80 + n % 64]

/-- A Unicode scalar value: a code point that is not a surrogate and not
above `MaxRune`. -/
def ValidScalar (n : Nat) : Prop := n < 0xD800 ∨ (0xDFFF < n ∧ n ≤ 0x10FFFF)

instance (n : Nat) : Decidable (ValidScalar n) := by
  unfold ValidScalar; infer_instance

/-- UTF-8 encoding of a sequence of scalar values. -/
def encodeList : List Nat → List Nat
  | [] => []
  | c :: cs => encodeChar c ++ encodeList cs

/-- Byte length of the UTF-8 encoding of a sequence of scalar values. -/
def blen (cs : List Nat) : Nat := (encodeList cs).length

/-- Embedding of `runeStack` (`rune_stack.go`): a LIFO stack of runes,
embedded as a list with its head as the top of the stack. -/
abbrev runeStack := List Int

/-- `NewRuneStack` returns an empty stack. -/
def NewRuneStack : runeStack := []

/-- `runeStack.Push`: pushes a rune on top of the stack. -/
def runeStack.Push (s : runeStack) (r : Int) : runeStack := r :: s

/-- `runeStack.Pop`: removes and returns the top rune; on an empty stack it
returns `rune(EOFToken)` and leaves the stack empty. -/
def runeStack.Pop (s : runeStack) : Int × runeStack :=
  match s with
  | [] => (EOFToken, [])
  | r :: rest => (r, rest)

/-- `runeStack.Clear`: drops all entries. -/
def runeStack.Clear (_ : runeStack) : runeStack := []

/-- Embedding of the Go `Token` struct.  The Go field `Type` is spelled
`Typ` (`Type` is a Lean keyword); `Value` is the byte string of the token
text. -/
structure Token where
  Typ : Int
  Value : List Nat
  Start : Nat
  End : Nat
deriving DecidableEq

/-- Embedding of the lexer struct `L`.  `Tokens` is the list of tokens
published to the token channel so far; `ErrorHandler` is the optional error
hook.  The `StartState`/`StateRecord` fields (caller-supplied state
functions) are omitted: no claim concerns them and `StateFunc` is a
negatively recursive function type. -/
structure L where
  Input : List Nat
  Start : Nat
  Position : Nat
  Rewind : runeStack
  Tokens : List Token
  Err : Option String
  ErrorHandler : Option (String → Unit)

/-- `New` creates a lexer ready to parse the given input. -/
def L.New (src : List Nat) : L :=
  { Input := src
    Start := 0
    Position := 0
    Rewind := NewRuneStack
    Tokens := []
    Err := none
    ErrorHandler := none }

/-- `Current` returns `l.Input[l.Start:l.Position]`. -/
def L.Current (l : L) : List Nat := (l.Input.take l.Position).drop l.Start

/-- `Emit` publishes a token built from the current lexeme, then advances
the lexeme boundary and clears the rewind stack. -/
def L.Emit (t : Int) (l : L) : L :=
  let tok : Token :=
    { Typ := t, Value := L.Current l, Start := l.Start, End := l.Position }
  { l with
    Tokens := l.Tokens ++ [tok]
    Start := l.Position
    Rewind := runeStack.Clear l.Rewind }

/-- `Ignore` advances the lexeme boundary without publishing a token. -/
def L.Ignore (l : L) : L :=
  { l with Start := l.Position, Rewind := runeStack.Clear l.Rewind }

/-- The rune/size pair Go `Next` computes before mutating the lexer:
`(EOFToken, 0)` when no input remains, otherwise the decoded rune at the
cursor and its size. -/
def nextDecode (l : L) : Int × Nat :=
  let str := l.Input.drop l.Position
  if str.length = 0 then (EOFToken, 0) else decodeRune str

/-- `Next` pulls the next rune, advances the cursor by its decoded size,
and pushes the rune onto the rewind stack. -/
def L.Next (l : L) : L × Int :=
  ({ l with
     Position := l.Position + (nextDecode l).2
     Rewind := runeStack.Push l.Rewind (nextDecode l).1 }, (nextDecode l).1)

/-- `Backup` pops the rewind stack; if the popped rune is above the
`EOFToken` sentinel the cursor retreats by `runeLen` of that rune, clamped
at `l.Start` (in which case `true`, the overflow flag, is returned). -/
def L.Backup (l : L) : L × Bool :=
  let p := runeStack.Pop l.Rewind
  if EOFToken < p.1 then
    let q : Int := (l.Position : Int) - runeLen p.1
    if q < (l.Start : Int) then
      ({ l with Rewind := p.2, Position := l.Start }, true)
    else
      ({ l with Rewind := p.2, Position := q.toNat }, false)
  else
    ({ l with Rewind := p.2 }, false)

/-- `Peek` performs a `Next` immediately followed by a `Backup`, returning
the peeked rune. -/
def L.Peek (l : L) : L × Int :=
  ((L.Backup (L.Next l).1).1, (L.Next l).2)

/-- `IgnoreCharacter` pops the rewind stack, excises
`l.Input[l.Position-width : l.Position]` from the input and retreats the
cursor by `width`.  The result is `none` when the Go slice expressions
would panic (an index out of range). -/
def L.IgnoreCharacter (l : L) : Option L :=
  let p := runeStack.Pop l.Rewind
  let cut : Int := (l.Position : Int) - runeLen p.1
  if 0 ≤ cut ∧ cut.toNat ≤ l.Input.length ∧ l.Position ≤ l.Input.length then
    some { l with
      Rewind := p.2
      Input := l.Input.take cut.toNat ++ l.Input.drop l.Position
      Position := cut.toNat }
  else none

/-- Embedding of Go `strings.ContainsRune(chars, r)`: the accept string is
given by its runes. -/
def containsRune (chars : List Char) (r : Int) : Bool :=
  chars.any fun c => (c.toNat : Int) == r

/-- `RunLexer` allocates the token channel with capacity
`len(l.Input) / 2`, raised to 1 when that is zero, and starts the run loop
in a goroutine.  The embedding returns the allocated capacity. -/
def L.RunLexer (l : L) : Nat :=
  let buffSize := l.Input.length / 2
  if buffSize ≤ 0 then 1 else buffSize

/-- `RunLexerSync`: identical channel allocation, synchronous run loop. -/
def L.RunLexerSync (l : L) : Nat :=
  let buffSize := l.Input.length / 2
  if buffSize ≤ 0 then 1 else buffSize

/-- Outcome of `L.Error`: either the run continues with the updated lexer
(the `String` component is the exact argument passed to the registered
handler), or the run is aborted by a Go `panic` carrying the message. -/
inductive ErrorResult where
  | ok (l : L) (hookArg : String)
  | panicked (msg : String)

/-- `Error` records the message and invokes the handler when one is
registered; otherwise it panics with the message. -/
def L.Error (l : L) (e : String) : ErrorResult :=
  match l.ErrorHandler with
  | some _ => ErrorResult.ok { l with Err := some e } e
  | none => ErrorResult.panicked e

/-- On non-empty input the decoder always consumes at least one byte (every
branch of `decodeRune` returns size 1, 2, 3 or 4).  Termination measure for
the loops below. -/
theorem decode_snd_pos (bs : List Nat) (h : bs ≠ []) : 0 < (decodeRune bs).2 := by
  match bs with
  | [] => exact absurd rfl h
  | b0 :: rest =>
    simp only [decodeRune]
    repeat' split
    all_goals simp

/-- A rune contained in an accept string is a code point, hence above the
`EOFToken` sentinel. -/
theorem containsRune_nonneg (chars : List Char) (r : Int)
    (h : containsRune chars r = true) : 0 ≤ r := by
  simp only [containsRune, List.any_eq_true, beq_iff_eq] at h
  obtain ⟨c, -, hc⟩ := h
  omega

/-- `Next` leaves the input unchanged. -/
theorem next_input (l : L) : (L.Next l).1.Input = l.Input := rfl

/-- When `Next` returns a rune above the sentinel, it consumed at least one
byte strictly inside the input. -/
theorem next_consumes (l : L) (h : EOFToken < (L.Next l).2) :
    l.Position < l.Input.length ∧ l.Position < (L.Next l).1.Position := by
  have hlen : (l.Input.drop l.Position).length ≠ 0 := by
    intro hz
    simp only [L.Next, nextDecode, hz, if_pos rfl] at h
    exact absurd h (by simp [EOFToken])
  have hp : l.Position < l.Input.length := by
    simp only [List.length_drop] at hlen; omega
  have hd : l.Input.drop l.Position ≠ [] := by
    intro hz; simp [hz] at hlen
  have hs := decode_snd_pos _ hd
  refine ⟨hp, ?_⟩
  simp only [L.Next, nextDecode, if_neg hlen]
  omega

/-- `TakeMany` (Go `takeRun`): pulls runes while they are members of the
accept string, then backs up once past the first non-member. -/
def L.TakeMany (chars : List Char) (l : L) : L :=
  if h : containsRune chars (L.Next l).2 = true then
    L.TakeMany chars (L.Next l).1
  else
    (L.Backup (L.Next l).1).1
termination_by l.Input.length - l.Position
decreasing_by
  have h0 := containsRune_nonneg chars _ h
  have h1 := next_consumes l (by simp only [EOFToken]; omega)
  rw [next_input]
  omega

/-- The sequence of runes obtained by repeatedly decoding a byte string
from its start (the runes a `range` loop over a Go string yields). -/
def decodeAll (bs : List Nat) : List Int :=
  if h : bs = [] then []
  else (decodeRune bs).1 :: decodeAll (bs.drop (decodeRune bs).2)
termination_by bs.length
decreasing_by
  have := decode_snd_pos bs h
  have : bs.length ≠ 0 := by simp [h]
  simp only [List.length_drop]
  omega

/-- Number of runes of a byte string under Go's `range` iteration. -/
def runeCount (bs : List Nat) : Nat :=
  if h : bs = [] then 0
  else 1 + runeCount (bs.drop (decodeRune bs).2)
termination_by bs.length
decreasing_by
  have := decode_snd_pos bs h
  have : bs.length ≠ 0 := by simp [h]
  simp only [List.length_drop]
  omega

/-- Go `fmt` precision truncation for strings: keep the bytes of the first
`n` runes. -/
def truncateRunes : Nat → List Nat → List Nat
  | 0, _ => []
  | _ + 1, [] => []
  | n + 1, b :: rest =>
    (b :: rest).take (decodeRune (b :: rest)).2 ++
      truncateRunes n ((b :: rest).drop (decodeRune (b :: rest)).2)

/-- Lowercase hex digit, as a byte. -/
def hexDig (n : Nat) : Nat := if n < 10 then 48 + n else 87 + n

/-- Body of Go `strconv.Quote` (invoked by `fmt`'s `%q` verb) on the byte
string: `"` and `\` are backslash-escaped, the named ASCII control escapes
are produced, other ASCII control bytes and `0x7F` become `\xNN`, a
malformed byte (decoded as `RuneError` with size 1) becomes `\xNN` of the
raw byte, and any other rune is copied verbatim.  (Go additionally escapes
non-printable non-ASCII runes by `\u`-forms driven by the `unicode.IsPrint`
tables; those tables are outside this embedding, and every theorem below
treats quoted output only through `goQuote` itself, on both sides of each
equation.) -/
def goQuoteBody (bs : List Nat) : List Nat :=
  if h : bs = [] then []
  else
    let p := decodeRune bs
    let b := bs.headI
    (if p.1 = 34 then [92, 34]
     else if p.1 = 92 then [92, 92]
     else if p.1 = 7 then [92, 97]
     else if p.1 = 8 then [92, 98]
     else if p.1 = 9 then [92, 116]
     else if p.1 = 10 then [92, 110]
     else if p.1 = 11 then [92, 118]
     else if p.1 = 12 then [92, 102]
     else if p.1 = 13 then [92, 114]
     else if p.1 < 32 ∨ p.1 = 127 then [92, 120, hexDig (b / 16), hexDig (b % 16)]
     else if p.1 = RuneError ∧ p.2 = 1 then
       [92, 120, hexDig (b / 16), hexDig (b % 16)]
     else bs.take p.2) ++ goQuoteBody (bs.drop p.2)
termination_by bs.length
decreasing_by
  have := decode_snd_pos bs h
  have : bs.length ≠ 0 := by simp [h]
  simp only [List.length_drop]
  omega

/-- Go `%q` of a byte string: the quoted body between `"` delimiters. -/
def goQuote (bs : List Nat) : List Nat := [34] ++ goQuoteBody bs ++ [34]

/-- `Token.String` (Go): `EOFToken` renders as `"EOF"`, `ErrorToken` as the
raw value, anything else as `fmt.Sprintf("%.10q...", v)` when
`len(v) > 10` and `fmt.Sprintf("%q", v)` otherwise. -/
def TokenString (t : Token) : List Nat :=
  if t.Typ = EOFToken then [69, 79, 70]
  else if t.Typ = ErrorToken then t.Value
  else if 10 < t.Value.length then
    goQuote (truncateRunes 10 t.Value) ++ [46, 46, 46]
  else goQuote t.Value

/-- The states of the lexer record reachable from `New src` under the
engine's mutating operations.  `Peek`, `PeekMany`, `Take`, `TakeMany`,
`TakePattern` and `TakeManyPattern` are compositions of `Next` and `Backup`
and hence reach no further states.  The `ignoreChar` step carries the guard
the specification imposes on `ignoreLastUnit` (the most recently pushed
rewind entry is an actually consumed unit, not the end-of-input sentinel;
an unguarded call is declared undefined), and applies only when the Go code
does not panic.  `error` applies when an error handler is registered (the
run continues); `setHandler` is the caller's assignment to the
`ErrorHandler` field before the run. -/
inductive Reach (src : List Nat) : L → Prop where
  | new : Reach src (L.New src)
  | next {l : L} : Reach src l → Reach src (L.Next l).1
  | backup {l : L} : Reach src l → Reach src (L.Backup l).1
  | emit {l : L} (t : Int) : Reach src l → Reach src (L.Emit t l)
  | ignore {l : L} : Reach src l → Reach src (L.Ignore l)
  | ignoreChar {l l' : L} (r : Int) (rest : runeStack) :
      Reach src l → l.Rewind = r :: rest → 0 ≤ r →
      L.IgnoreCharacter l = some l' → Reach src l'
  | error {l l' : L} (e s : String) :
      Reach src l → L.Error l e = ErrorResult.ok l' s → Reach src l'
  | setHandler {l : L} (h : Option (String → Unit)) :
      Reach src l → Reach src { l with ErrorHandler := h }

/-- A byte string is valid UTF-8 when it is the encoding of a sequence of
Unicode scalar values. -/
def ValidUtf8 (src : List Nat) : Prop :=
  ∃ cs, (∀ c ∈ cs, ValidScalar c) ∧ src = encodeList cs

/-- The internal shape of every reachable lexer state over valid UTF-8
input: the input is the encoding of `a ++ b ++ c`, the lexeme boundary sits
after `a`, the cursor after `a ++ b`, and the rewind stack holds a block of
`k` end-of-input sentinels (possible only when no input remains, `c = []`)
on top of the scalars of `b` in reverse order of consumption. -/
def Inv (l : L) : Prop :=
  ∃ a b c k,
    (∀ u ∈ a, ValidScalar u) ∧ (∀ u ∈ b, ValidScalar u) ∧
    (∀ u ∈ c, ValidScalar u) ∧
    l.Input = encodeList (a ++ b ++ c) ∧
    l.Start = blen a ∧
    l.Position = blen a + blen b ∧
    l.Rewind = List.replicate k EOFToken ++ (b.map Int.ofNat).reverse ∧
    (0 < k → c = [])

/-- C9: both run-mode selectors allocate the bounded token queue with
capacity `max(1, byteLength(input)/2)` (integer division); for a
zero-length input the capacity is exactly 1. -/
theorem c9_capacity :
    (∀ l : L, L.RunLexer l = max 1 (l.Input.length / 2)) ∧
    (∀ l : L, L.RunLexerSync l = max 1 (l.Input.length / 2)) ∧
    L.RunLexer (L.New []) = 1 ∧ L.RunLexerSync (L.New []) = 1 := by
  refine ⟨fun l => ?_, fun l => ?_, rfl, rfl⟩ <;>
    · simp only [L.RunLexer, L.RunLexerSync]
      split <;> omega

/-- C1: `backup()` pops the rewind stack; a popped non-sentinel unit moves
the cursor back by its encoded width (`runeLen`), clamped at `lexemeStart`
with overflow flag `true`; a popped sentinel (and an empty stack, whose pop
yields the sentinel) moves nothing and yields `false`.  The hypothesis
`EOFToken ≤ r` states that the popped entry is a value `Next` can push (the
sentinel or a decoded code point). -/
theorem c1_backup (l : L) :
    (l.Rewind = [] → L.Backup l = (l, false)) ∧
    (∀ r rest, l.Rewind = r :: rest → EOFToken ≤ r →
      L.Backup l =
        if r = EOFToken then ({ l with Rewind := rest }, false)
        else if ((l.Position : Int) - runeLen r) < (l.Start : Int) then
          ({ l with
             Rewind := rest
             Position := l.Start }, true)
        else
          ({ l with
             Rewind := rest
             Position := ((l.Position : Int) - runeLen r).toNat }, false)) := by
  obtain ⟨inp, st, pos, rew, toks, err, eh⟩ := l
  constructor
  · intro h
    simp only at h
    subst h
    simp [L.Backup, runeStack.Pop, EOFToken]
  · intro r rest h hr
    simp only at h
    subst h
    by_cases he : r = EOFToken
    · subst he
      simp [L.Backup, runeStack.Pop, EOFToken]
    · have hlt : EOFToken < r := by
        simp only [EOFToken] at *; omega
      simp only [L.Backup, runeStack.Pop, if_pos hlt, if_neg he]

/-- C1 witness: backing up after consuming `'a'` from `"ab"` retreats the
cursor from 1 to 0 without overflow. -/
theorem c1_backup_witness :
    L.Backup { L.New [97, 98] with Position := 1, Rewind := [97] } =
      ({ L.New [97, 98] with Position := 0, Rewind := [] }, false) := by
  have h := (c1_backup { L.New [97, 98] with Position := 1, Rewind := [97] }).2
    97 [] rfl (by decide)
  simpa using h

/-- C4: with a handler registered, `Error` records the message as the last
error and hands exactly that message to the hook, returning normally (the
run is not halted); with no handler it panics with the message. -/
theorem c4_error (l : L) (e : String) :
    (∀ h, l.ErrorHandler = some h →
      L.Error l e = ErrorResult.ok { l with Err := some e } e) ∧
    (l.ErrorHandler = none → L.Error l e = ErrorResult.panicked e) := by
  constructor
  · intro h hh
    simp [L.Error, hh]
  · intro hh
    simp [L.Error, hh]

/-- C4 witness: a lexer with a registered handler reports `"boom"`, records
it and passes it through unchanged. -/
theorem c4_error_witness :
    L.Error { L.New [] with ErrorHandler := some (fun _ => ()) } "boom" =
      ErrorResult.ok
        { { L.New [] with ErrorHandler := some (fun _ => ()) } with
          Err := some "boom" } "boom" :=
  (c4_error { L.New [] with ErrorHandler := some (fun _ => ()) } "boom").1
    (fun _ => ()) rfl

/-- C10: popping an empty rewind stack yields the `EOFToken` value, the
same value used for the end-of-input sentinel, and `backup()` right after a
`next()` performed at end of input restores the lexer exactly (cursor
unchanged, `false` returned) — indistinguishable from an empty-stack
backup. -/
theorem c10_eof_backup (l : L) (h : l.Input.length ≤ l.Position) :
    runeStack.Pop [] = (EOFToken, []) ∧ L.Backup (L.Next l).1 = (l, false) := by
  refine ⟨rfl, ?_⟩
  obtain ⟨inp, st, pos, rew, toks, err, eh⟩ := l
  simp only at h
  have hz : (inp.drop pos).length = 0 := by
    simp only [List.length_drop]; omega
  simp [L.Next, L.Backup, nextDecode, runeStack.Push, runeStack.Pop, hz, EOFToken]

/-- C10 witness: on the empty input, `next()` then `backup()` is the
identity and reports no overflow. -/
theorem c10_eof_backup_witness :
    L.Backup (L.Next (L.New [])).1 = (L.New [], false) :=
  (c10_eof_backup (L.New []) (by decide)).2

/-- C2: `emit(kind)` publishes exactly one token whose text is
`input[lexemeStart:cursor]` at the moment of emission, with `Start` and
`End` the lexeme bounds, then sets `lexemeStart = cursor` and clears the
rewind stack (so the new in-progress lexeme is empty). -/
theorem c2_emit (t : Int) (l : L) :
    L.Emit t l =
      { l with
        Tokens := l.Tokens ++
          [{ Typ := t
             Value := (l.Input.take l.Position).drop l.Start
             Start := l.Start
             End := l.Position }]
        Start := l.Position
        Rewind := [] } ∧
    (L.Emit t l).Tokens.length = l.Tokens.length + 1 ∧
    L.Current (L.Emit t l) = [] := by
  refine ⟨rfl, by simp [L.Emit], ?_⟩
  simp only [L.Current, L.Emit]
  exact List.drop_eq_nil_of_le (by simp)

/-- The encoding of a scalar value is never empty. -/
theorem encodeChar_length_pos (n : Nat) : 0 < (encodeChar n).length := by
  unfold encodeChar
  split_ifs <;> simp

/-- `encodeList` distributes over append. -/
theorem encodeList_append (xs ys : List Nat) :
    encodeList (xs ++ ys) = encodeList xs ++ encodeList ys := by
  induction xs with
  | nil => simp [encodeList]
  | cons c cs ih => simp [encodeList, ih]

/-- `blen` distributes over append. -/
theorem blen_append (xs ys : List Nat) : blen (xs ++ ys) = blen xs + blen ys := by
  simp [blen, encodeList_append]

/-- `blen` of a single scalar is the length of its encoding. -/
theorem blen_single (c : Nat) : blen [c] = (encodeChar c).length := by
  simp [blen, encodeList]

set_option maxHeartbeats 1000000 in
/-- The stdlib decoder inverts the UTF-8 encoding of a valid scalar,
whatever bytes follow. -/
theorem decode_encode (n : Nat) (h : ValidScalar n) (bs : List Nat) :
    decodeRune (encodeChar n ++ bs) = ((n : Int), (encodeChar n).length) := by
  by_cases h1 : n < 0x80
  · have he : encodeChar n = [n] := by simp [encodeChar, h1]
    rw [he]
    simp only [List.cons_append, List.nil_append, decodeRune, if_pos h1,
      List.length_cons, List.length_nil]
  · by_cases h2 : n < 0x800
    · have he : encodeChar n = [0xC0 + n / 64, 0x80 + n % 64] := by
        rw [encodeChar, if_neg h1, if_pos h2]
      rw [he]
      simp only [List.cons_append, List.nil_append, decodeRune]
      split_ifs <;> try omega
      rw [Prod.mk.injEq]
      exact ⟨by omega, by simp⟩
    · by_cases h3 : n < 0x10000
      · have he : encodeChar n =
            [0xE0 + n / 4096, 0x80 + (n / 64) % 64, 0x80 + n % 64] := by
          rw [encodeChar, if_neg h1, if_neg h2, if_pos h3]
        have hs : n < 0xD800 ∨ 0xDFFF < n := by
          rcases h with h | h
          · exact Or.inl h
          · exact Or.inr h.1
        rw [he]
        simp only [List.cons_append, List.nil_append, decodeRune]
        split_ifs <;> try omega
        all_goals rw [Prod.mk.injEq]
        all_goals exact ⟨by omega, by simp⟩
      · have h4 : n ≤ 0x10FFFF := by
          rcases h with h | h
          · omega
          · exact h.2
        have he : encodeChar n =
            [0xF0 + n / 262144, 0x80 + (n / 4096) % 64, 0x80 + (n / 64) % 64,
              0x80 + n % 64] := by
          rw [encodeChar, if_neg h1, if_neg h2, if_neg h3]
        rw [he]
        simp only [List.cons_append, List.nil_append, decodeRune]
        split_ifs <;> try omega
        all_goals rw [Prod.mk.injEq]
        all_goals exact ⟨by omega, by simp⟩

/-- `runeLen` of a valid scalar is the length of its UTF-8 encoding. -/
theorem runeLen_encode (n : Nat) (h : ValidScalar n) :
    runeLen (n : Int) = ((encodeChar n).length : Int) := by
  have hl : (encodeChar n).length =
      if n < 0x80 then 1 else if n < 0x800 then 2
      else if n < 0x10000 then 3 else 4 := by
    unfold encodeChar
    split_ifs <;> simp
  rw [hl]
  unfold runeLen
  unfold ValidScalar at h
  split_ifs <;> omega

/-- Decoding the encoding of a scalar sequence recovers the sequence. -/
theorem decodeAll_encodeList (cs : List Nat) (h : ∀ c ∈ cs, ValidScalar c) :
    decodeAll (encodeList cs) = cs.map Int.ofNat := by
  induction cs with
  | nil => rw [encodeList, decodeAll]; simp
  | cons c cs ih =>
    have hv : ValidScalar c := h c (by simp)
    have hne : encodeChar c ++ encodeList cs ≠ [] := by
      have hp := encodeChar_length_pos c
      intro hz
      rw [List.append_eq_nil] at hz
      rw [hz.1] at hp
      simp at hp
    rw [encodeList, decodeAll, dif_neg hne, decode_encode c hv,
      List.drop_left, ih (fun x hx => h x (by simp [hx]))]
    rfl

/-- The rune count of the encoding of a scalar sequence is its length. -/
theorem runeCount_encodeList (cs : List Nat) (h : ∀ c ∈ cs, ValidScalar c) :
    runeCount (encodeList cs) = cs.length := by
  induction cs with
  | nil => rw [encodeList, runeCount]; simp
  | cons c cs ih =>
    have hv : ValidScalar c := h c (by simp)
    have hne : encodeChar c ++ encodeList cs ≠ [] := by
      have hp := encodeChar_length_pos c
      intro hz
      rw [List.append_eq_nil] at hz
      rw [hz.1] at hp
      simp at hp
    rw [encodeList, runeCount, dif_neg hne, decode_encode c hv,
      List.drop_left, ih (fun x hx => h x (by simp [hx]))]
    simp [Nat.add_comm]

/-- Truncation to the first `n` runes keeps a leading segment of the byte
string. -/
theorem truncateRunes_extends (n : Nat) (bs : List Nat) :
    ∃ tail, truncateRunes n bs ++ tail = bs := by
  induction n generalizing bs with
  | zero => exact ⟨bs, rfl⟩
  | succ n ih =>
    cases bs with
    | nil => exact ⟨[], rfl⟩
    | cons b rest =>
      obtain ⟨tail, ht⟩ := ih ((b :: rest).drop (decodeRune (b :: rest)).2)
      refine ⟨tail, ?_⟩
      rw [truncateRunes, List.append_assoc, ht, List.take_append_drop]

/-- C7 counterexample: the token value `"ααααααα"` (7 characters, 14 bytes)
is rendered WITH the ellipsis marker (the Go guard is `len(t.Value) > 10`,
a byte count), although it is not longer than 10 characters; the claim
(ellipsis iff longer than 10 characters, plain quoting otherwise) predicts
the rendering `goQuote value` without an ellipsis. -/
theorem c7_counterexample :
    runeCount (Token.Value
        { Typ := 1
          Value := [206, 177, 206, 177, 206, 177, 206, 177, 206, 177, 206, 177,
            206, 177]
          Start := 0
          End := 14 }) ≤ 10 ∧
    TokenString
        { Typ := 1
          Value := [206, 177, 206, 177, 206, 177, 206, 177, 206, 177, 206, 177,
            206, 177]
          Start := 0
          End := 14 } ≠
      goQuote [206, 177, 206, 177, 206, 177, 206, 177, 206, 177, 206, 177,
        206, 177] := by
  constructor
  · have hv : [206, 177, 206, 177, 206, 177, 206, 177, 206, 177, 206, 177,
        206, 177] = encodeList [945, 945, 945, 945, 945, 945, 945] := by rfl
    show runeCount [206, 177, 206, 177, 206, 177, 206, 177, 206, 177, 206, 177,
        206, 177] ≤ 10
    rw [hv, runeCount_encodeList _ (by decide)]
    decide
  · have h1 : TokenString
        { Typ := 1
          Value := [206, 177, 206, 177, 206, 177, 206, 177, 206, 177, 206, 177,
            206, 177]
          Start := 0
          End := 14 } =
        goQuote (truncateRunes 10 [206, 177, 206, 177, 206, 177, 206, 177, 206,
          177, 206, 177, 206, 177]) ++ [46, 46, 46] := by
      simp only [TokenString]
      norm_num [EOFToken, ErrorToken]
    have h2 : truncateRunes 10 [206, 177, 206, 177, 206, 177, 206, 177, 206,
        177, 206, 177, 206, 177] =
        [206, 177, 206, 177, 206, 177, 206, 177, 206, 177, 206, 177, 206,
          177] := by rfl
    rw [h1, h2]
    intro he
    have hlen := congrArg List.length he
    simp only [List.length_append, List.length_cons, List.length_nil] at hlen
    omega

/-- C7 amended, all three rendering clauses: `EndOfInput` renders as the
literal string `"EOF"`; `Error` renders as its raw text value unmodified;
any other kind renders as the value quoted, with truncation to the first 10
characters and a trailing ellipsis marker if and only if the value is
longer than 10 BYTES (the Go guard is `len(t.Value) > 10`, a byte count,
not a character count). -/
theorem c7_render (t : Token) :
    (t.Typ = EOFToken → TokenString t = [69, 79, 70]) ∧
    (t.Typ = ErrorToken → TokenString t = t.Value) ∧
    (t.Typ ≠ EOFToken → t.Typ ≠ ErrorToken →
      (10 < t.Value.length →
        TokenString t = goQuote (truncateRunes 10 t.Value) ++ [46, 46, 46] ∧
        ∃ tail, truncateRunes 10 t.Value ++ tail = t.Value) ∧
      (t.Value.length ≤ 10 → TokenString t = goQuote t.Value)) := by
  refine ⟨?_, ?_, ?_⟩
  · intro h
    simp only [TokenString, if_pos h]
  · intro h
    have hne : t.Typ ≠ EOFToken := by
      rw [h, ErrorToken, EOFToken]
      omega
    simp only [TokenString, if_neg hne, if_pos h]
  · intro h1 h2
    constructor
    · intro hlen
      refine ⟨?_, truncateRunes_extends 10 t.Value⟩
      simp only [TokenString, if_neg h1, if_neg h2, if_pos hlen]
    · intro hlen
      simp only [TokenString, if_neg h1, if_neg h2,
        if_neg (by omega : ¬ 10 < t.Value.length)]

/-- C7 witness: an `EndOfInput` token renders as `"EOF"`, an `Error` token
as its raw text, and a 12-byte ASCII value is quoted, truncated to its
first 10 characters and given the ellipsis marker. -/
theorem c7_render_witness :
    TokenString { Typ := -1, Value := [120], Start := 0, End := 1 } =
      [69, 79, 70] ∧
    TokenString { Typ := 0, Value := [120], Start := 0, End := 1 } = [120] ∧
    TokenString
        { Typ := 1
          Value := [97, 97, 97, 97, 97, 97, 97, 97, 97, 97, 97, 97]
          Start := 0
          End := 12 } =
      goQuote (truncateRunes 10 [97, 97, 97, 97, 97, 97, 97, 97, 97, 97, 97,
        97]) ++ [46, 46, 46] :=
  ⟨(c7_render { Typ := -1, Value := [120], Start := 0, End := 1 }).1
      (by decide),
   (c7_render { Typ := 0, Value := [120], Start := 0, End := 1 }).2.1
      (by decide),
   (((c7_render
      { Typ := 1
        Value := [97, 97, 97, 97, 97, 97, 97, 97, 97, 97, 97, 97]
        Start := 0
        End := 12 }).2.2 (by decide) (by decide)).1 (by decide)).1⟩

/-- C5 counterexample: in the reachable state obtained by consuming `'A'`
from the two-byte input `"A\xFF"`, `peek()` moves the cursor.  The byte
`0xFF` decodes as `RuneError` with size 1, but the `backup()` inside
`peek()` retreats by `runeLen(RuneError) = 3` and clamps at `lexemeStart`:
the cursor ends at 0 instead of staying at 1. -/
theorem c5_counterexample :
    (L.Peek (L.Next (L.New [65, 255])).1).1.Position ≠
      (L.Next (L.New [65, 255])).1.Position := by decide

/-- C5 amended: whenever the bytes at the cursor decode consistently — the
cursor is at end of input (`nextDecode` yields the sentinel with size 0) or
the decoded rune's `runeLen` equals its decoded size, which holds
everywhere on valid UTF-8 input — and `lexemeStart ≤ cursor`, `peek()`
returns exactly what `next()` would return, restores the lexer state
completely (no net cursor movement), and is idempotent. -/
theorem c5_peek (l : L) (hsp : l.Start ≤ l.Position)
    (hdec : nextDecode l = (EOFToken, 0) ∨
      runeLen (nextDecode l).1 = ((nextDecode l).2 : Int)) :
    (L.Peek l).2 = (L.Next l).2 ∧ (L.Peek l).1 = l ∧
    L.Peek (L.Peek l).1 = L.Peek l := by
  have key : (L.Peek l).1 = l := by
    obtain ⟨inp, st, pos, rew, toks, err, eh⟩ := l
    rcases hdec with h | h
    · simp only [L.Peek, L.Next, L.Backup, runeStack.Push, runeStack.Pop, h]
      norm_num [EOFToken]
    · rcases hp : nextDecode ⟨inp, st, pos, rew, toks, err, eh⟩ with ⟨r, s⟩
      rw [hp] at h
      simp only at h
      have hr0 : 0 ≤ r := by
        by_contra hneg
        push_neg at hneg
        unfold runeLen at h
        rw [if_pos hneg] at h
        omega
      have hlt : EOFToken < r := by simp only [EOFToken]; omega
      simp only [L.Peek, L.Next, L.Backup, runeStack.Push, runeStack.Pop, hp, h]
      rw [if_pos hlt, if_neg (by simp only at hsp; push_cast; omega)]
      simp only [L.mk.injEq, true_and, and_true]
      omega
  exact ⟨rfl, key, by rw [key]⟩

/-- C5 witness: on the input `"a"`, `peek()` returns what `next()` would,
restores the state and is idempotent. -/
theorem c5_peek_witness :
    (L.Peek (L.New [97])).2 = (L.Next (L.New [97])).2 ∧
    (L.Peek (L.New [97])).1 = L.New [97] ∧
    L.Peek (L.Peek (L.New [97])).1 = L.Peek (L.New [97]) :=
  c5_peek (L.New [97]) (by decide) (Or.inr (by decide))

/-- `blen` of the empty sequence. -/
theorem blen_nil : blen [] = 0 := rfl

/-- `blen` of a cons. -/
theorem blen_cons (c : Nat) (cs : List Nat) :
    blen (c :: cs) = (encodeChar c).length + blen cs := by
  simp [blen, encodeList]

/-- `Next` at a rune boundary of a valid-UTF-8 region: consumes exactly the
next scalar's encoding and pushes that scalar. -/
theorem next_boundary (l : L) (pre : List Nat) (x : Nat) (suf : List Nat)
    (hx : ValidScalar x)
    (hin : l.Input = encodeList pre ++ (encodeChar x ++ suf))
    (hpos : l.Position = blen pre) :
    L.Next l =
      ({ l with
         Position := blen pre + (encodeChar x).length
         Rewind := (x : Int) :: l.Rewind }, (x : Int)) := by
  have hd : l.Input.drop l.Position = encodeChar x ++ suf := by
    rw [hin, hpos, blen]
    exact List.drop_left _ _
  have hne : ¬ (l.Input.drop l.Position).length = 0 := by
    rw [hd]
    have := encodeChar_length_pos x
    simp only [List.length_append]
    omega
  have hnd : nextDecode l = ((x : Int), (encodeChar x).length) := by
    rw [nextDecode]
    simp only [hd] at hne ⊢
    rw [if_neg hne, decode_encode x hx suf]
  simp only [L.Next, hnd, runeStack.Push, hpos]

/-- `Next` at end of input: pushes the sentinel, moves nothing. -/
theorem next_eof (l : L) (h : l.Input.length ≤ l.Position) :
    (L.Next l).1 = { l with Rewind := EOFToken :: l.Rewind } ∧
    (L.Next l).2 = EOFToken := by
  have hz : (l.Input.drop l.Position).length = 0 := by
    simp only [List.length_drop]; omega
  have hnd : nextDecode l = (EOFToken, 0) := by
    rw [nextDecode]
    simp only [hz, if_pos]
  constructor
  · simp only [L.Next, hnd, runeStack.Push, Nat.add_zero]
  · simp [L.Next, hnd]

/-- `Backup` with a valid scalar on top of the rewind stack and enough room
above `lexemeStart`: retreats by exactly that scalar's width. -/
theorem backup_unit (l : L) (x : Nat) (rest : runeStack) (hx : ValidScalar x)
    (hrew : l.Rewind = (x : Int) :: rest)
    (hw : l.Start + (encodeChar x).length ≤ l.Position) :
    L.Backup l =
      ({ l with
         Rewind := rest
         Position := l.Position - (encodeChar x).length }, false) := by
  have hlt : EOFToken < (x : Int) := by
    rw [EOFToken]; omega
  simp only [L.Backup, hrew, runeStack.Pop]
  rw [if_pos hlt, runeLen_encode x hx, if_neg (by omega)]
  have ht : ((l.Position : Int) - ((encodeChar x).length : Int)).toNat =
      l.Position - (encodeChar x).length := by omega
  rw [ht]

/-- `Backup` with the sentinel on top of the rewind stack: pops it and
moves nothing. -/
theorem backup_sentinel (l : L) (rest : runeStack)
    (hrew : l.Rewind = EOFToken :: rest) :
    L.Backup l = ({ l with Rewind := rest }, false) := by
  simp only [L.Backup, hrew, runeStack.Pop]
  rw [if_neg (by omega)]

/-- One-step unfolding of `TakeMany`. -/
theorem takeMany_eq (chars : List Char) (l : L) :
    L.TakeMany chars l =
      if containsRune chars (L.Next l).2 = true then
        L.TakeMany chars (L.Next l).1
      else (L.Backup (L.Next l).1).1 := by
  rw [L.TakeMany]
  exact dite_eq_ite

/-- `TakeMany` over a run of accepted scalars followed by a rejected scalar
stops with the cursor right before the rejected scalar. -/
theorem takeMany_stops (chars : List Char) (mid : List Nat) :
    ∀ (l : L) (pre : List Nat) (x : Nat) (suf : List Nat),
      (∀ c ∈ mid, ValidScalar c) → ValidScalar x →
      l.Input = encodeList pre ++ (encodeList mid ++ (encodeChar x ++ suf)) →
      l.Position = blen pre → l.Start ≤ l.Position →
      (∀ u ∈ mid, containsRune chars (u : Int) = true) →
      containsRune chars (x : Int) = false →
      (L.TakeMany chars l).Position = blen pre + blen mid := by
  induction mid with
  | nil =>
    intro l pre x suf hmv hx hin hpos hst hmemb hout
    have hnext := next_boundary l pre x suf hx (by simpa [encodeList] using hin) hpos
    rw [takeMany_eq, hnext]
    rw [if_neg (by simp [hout])]
    have hb := backup_unit
      { l with
        Position := blen pre + (encodeChar x).length
        Rewind := (x : Int) :: l.Rewind } x l.Rewind hx rfl
      (by simp only []; omega)
    rw [hb]
    simp [blen_nil]
  | cons u mid' ih =>
    intro l pre x suf hmv hx hin hpos hst hmemb hout
    have hu : ValidScalar u := hmv u (by simp)
    have hin' : l.Input =
        encodeList pre ++
          (encodeChar u ++ (encodeList mid' ++ (encodeChar x ++ suf))) := by
      rw [hin]
      simp [encodeList]
    have hnext := next_boundary l pre u _ hu hin' hpos
    rw [takeMany_eq, hnext]
    rw [if_pos (by simp [hmemb u (by simp)])]
    have happ := ih
      { l with
        Position := blen pre + (encodeChar u).length
        Rewind := (u : Int) :: l.Rewind } (pre ++ [u]) x suf
      (fun c hc => hmv c (by simp [hc])) hx
      (by
        simp only []
        rw [hin', encodeList_append]
        simp [encodeList, List.append_assoc])
      (by simp [blen_append, blen_single])
      (by simp only []; omega)
      (fun v hv => hmemb v (by simp [hv])) hout
    rw [happ, blen_append, blen_single, blen_cons]
    omega

/-- `TakeMany` over a remaining input consisting entirely of accepted
scalars consumes everything and leaves the cursor at end of input. -/
theorem takeMany_all (chars : List Char) (mid : List Nat) :
    ∀ (l : L) (pre : List Nat),
      (∀ c ∈ mid, ValidScalar c) →
      l.Input = encodeList pre ++ encodeList mid →
      l.Position = blen pre → l.Start ≤ l.Position →
      (∀ u ∈ mid, containsRune chars (u : Int) = true) →
      (L.TakeMany chars l).Position = l.Input.length := by
  induction mid with
  | nil =>
    intro l pre hmv hin hpos hst hmemb
    have hlen : l.Input.length = blen pre := by
      rw [hin]
      simp [encodeList, blen]
    have heof := next_eof l (by omega)
    rw [takeMany_eq, heof.1, heof.2]
    have hcf : containsRune chars EOFToken = false := by
      cases hb : containsRune chars EOFToken with
      | false => rfl
      | true =>
        have := containsRune_nonneg chars EOFToken hb
        rw [EOFToken] at this
        omega
    rw [if_neg (by simp [hcf])]
    rw [backup_sentinel
      { l with Rewind := EOFToken :: l.Rewind } l.Rewind rfl]
    simp only []
    omega
  | cons u mid' ih =>
    intro l pre hmv hin hpos hst hmemb
    have hu : ValidScalar u := hmv u (by simp)
    have hin' : l.Input =
        encodeList pre ++ (encodeChar u ++ encodeList mid') := by
      rw [hin]
      simp [encodeList]
    have hnext := next_boundary l pre u _ hu hin' hpos
    rw [takeMany_eq, hnext]
    rw [if_pos (by simp [hmemb u (by simp)])]
    have happ := ih
      { l with
        Position := blen pre + (encodeChar u).length
        Rewind := (u : Int) :: l.Rewind } (pre ++ [u])
      (fun c hc => hmv c (by simp [hc]))
      (by
        simp only []
        rw [hin', encodeList_append]
        simp [encodeList, List.append_assoc])
      (by simp [blen_append, blen_single])
      (by simp only []; omega)
      (fun v hv => hmemb v (by simp [hv]))
    rw [happ]

/-- C6 counterexample: on the input `"0\xFF"` with accept set `"0"`, the
greedy phase consumes `'0'` (cursor 1) and the trailing retreat should
leave the first non-member (the byte `0xFF` at offset 1) unconsumed, i.e.
the cursor at 1.  Instead the retreat uses `runeLen(RuneError) = 3` for the
one malformed byte, clamps at `lexemeStart`, and the cursor ends at 0: the
accepted `'0'` is un-consumed again. -/
theorem c6_counterexample :
    (L.TakeMany [Char.ofNat 48] (L.New [48, 255])).Position = 0 := by
  have h1 : L.Next (L.New [48, 255]) =
      ({ L.New [48, 255] with Position := 1, Rewind := [48] }, 48) := rfl
  have h2 : L.Next { L.New [48, 255] with Position := 1, Rewind := [48] } =
      ({ L.New [48, 255] with Position := 2, Rewind := [0xFFFD, 48] },
        0xFFFD) := rfl
  rw [takeMany_eq, h1, if_pos (by decide)]
  rw [takeMany_eq, h2, if_neg (by decide)]
  rfl

/-- C6 amended: over valid UTF-8, `takeRun(acceptSet)` consumes scalars
greedily while they are members and retreats exactly one step, leaving the
first non-member unconsumed; when the whole remaining input consists of
members it consumes everything and the cursor ends exactly at end of input.
(The original claim's "every lexer state" must exclude states whose input
is malformed at the point the run stops, per the counterexample.) -/
theorem c6_take_run :
    (∀ (chars : List Char) (l : L) (pre mid : List Nat) (x : Nat)
        (suf : List Nat),
      (∀ c ∈ mid, ValidScalar c) → ValidScalar x →
      l.Input = encodeList pre ++ (encodeList mid ++ (encodeChar x ++ suf)) →
      l.Position = blen pre → l.Start ≤ l.Position →
      (∀ u ∈ mid, containsRune chars (u : Int) = true) →
      containsRune chars (x : Int) = false →
      (L.TakeMany chars l).Position = blen pre + blen mid) ∧
    (∀ (chars : List Char) (l : L) (pre mid : List Nat),
      (∀ c ∈ mid, ValidScalar c) →
      l.Input = encodeList pre ++ encodeList mid →
      l.Position = blen pre → l.Start ≤ l.Position →
      (∀ u ∈ mid, containsRune chars (u : Int) = true) →
      (L.TakeMany chars l).Position = l.Input.length) :=
  ⟨fun chars _ pre mid x suf hmv hx hin hpos hst hmemb hout =>
    takeMany_stops chars mid _ pre x suf hmv hx hin hpos hst hmemb hout,
   fun chars _ pre mid hmv hin hpos hst hmemb =>
    takeMany_all chars mid _ pre hmv hin hpos hst hmemb⟩

/-- C6 witness: with accept set `"a"`, `takeRun` on `"ab"` stops at offset
1 (before `'b'`), and on `"aa"` it consumes the whole input. -/
theorem c6_take_run_witness :
    (L.TakeMany [Char.ofNat 97] (L.New [97, 98])).Position = blen [] + blen [97] ∧
    (L.TakeMany [Char.ofNat 97] (L.New [97, 97])).Position =
      (L.New [97, 97]).Input.length :=
  ⟨c6_take_run.1 [Char.ofNat 97] (L.New [97, 98]) [] [97] 98 []
      (by decide) (by decide) (by decide) (by decide) (by decide)
      (by decide) (by decide),
   c6_take_run.2 [Char.ofNat 97] (L.New [97, 97]) [] [97, 97]
      (by decide) (by decide) (by decide) (by decide) (by decide)⟩

/-- `Backup` on an empty rewind stack pops the sentinel and moves
nothing. -/
theorem backup_empty (l : L) (hrew : l.Rewind = []) :
    L.Backup l = ({ l with Rewind := [] }, false) := by
  simp only [L.Backup, hrew, runeStack.Pop]
  rw [if_neg (by omega)]

/-- A fresh lexer over valid UTF-8 satisfies the invariant. -/
theorem inv_new (cs : List Nat) (h : ∀ c ∈ cs, ValidScalar c) :
    Inv (L.New (encodeList cs)) := by
  refine ⟨[], [], cs, 0, by simp, by simp, h, ?_, rfl, rfl, rfl, by simp⟩
  simp [L.New, encodeList]

/-- `Next` preserves the invariant. -/
theorem inv_next (l : L) (h : Inv l) : Inv (L.Next l).1 := by
  obtain ⟨a, b, c, k, hva, hvb, hvc, hin, hst, hpos, hrew, hk⟩ := h
  cases c with
  | nil =>
    have hlen : l.Input.length ≤ l.Position := by
      rw [hin, hpos]
      simp [blen, encodeList_append]
    have hnext := next_eof l hlen
    refine ⟨a, b, [], k + 1, hva, hvb, by simp, ?_, ?_, ?_, ?_, fun _ => rfl⟩
    · rw [hnext.1]
      exact hin
    · rw [hnext.1]
      exact hst
    · rw [hnext.1]
      exact hpos
    · rw [hnext.1]
      simp only [hrew, List.replicate_succ, List.cons_append]
  | cons x c' =>
    have hk0 : k = 0 := by
      by_contra h0
      have := hk (Nat.pos_of_ne_zero h0)
      simp at this
    subst hk0
    have hx : ValidScalar x := hvc x (by simp)
    have hin' : l.Input =
        encodeList (a ++ b) ++ (encodeChar x ++ encodeList c') := by
      rw [hin, encodeList_append, encodeList_append]
      simp [encodeList, List.append_assoc]
    have hpos' : l.Position = blen (a ++ b) := by rw [hpos, blen_append]
    have hnext := next_boundary l (a ++ b) x (encodeList c') hx hin' hpos'
    refine ⟨a, b ++ [x], c', 0,
      hva, ?_, fun u hu => hvc u (by simp [hu]), ?_, ?_, ?_, ?_, by simp⟩
    · intro u hu
      rcases List.mem_append.mp hu with hu | hu
      · exact hvb u hu
      · simp at hu
        subst hu
        exact hx
    · rw [hnext]
      simp only
      rw [hin]
      exact congrArg encodeList (by simp)
    · rw [hnext]
      exact hst
    · rw [hnext]
      simp only
      rw [blen_append, blen_append, blen_single]
      omega
    · rw [hnext]
      simp only [hrew]
      simp

/-- `Backup` preserves the invariant. -/
theorem inv_backup (l : L) (h : Inv l) : Inv (L.Backup l).1 := by
  obtain ⟨a, b, c, k, hva, hvb, hvc, hin, hst, hpos, hrew, hk⟩ := h
  cases k with
  | succ k' =>
    have hrew' : l.Rewind =
        EOFToken :: (List.replicate k' EOFToken ++ (b.map Int.ofNat).reverse) := by
      rw [hrew, List.replicate_succ, List.cons_append]
    rw [backup_sentinel l _ hrew']
    exact ⟨a, b, c, k', hva, hvb, hvc, hin, hst, hpos, rfl,
      fun _ => hk (Nat.succ_pos _)⟩
  | zero =>
    rcases List.eq_nil_or_concat b with hb | ⟨b', x, hb⟩
    · subst hb
      have hrew' : l.Rewind = [] := by simp [hrew]
      rw [backup_empty l hrew']
      exact ⟨a, [], c, 0, hva, by simp, hvc, hin, hst, hpos, by simp, hk⟩
    · rw [List.concat_eq_append] at hb
      subst hb
      have hx : ValidScalar x := hvb x (by simp)
      have hrew' : l.Rewind = (x : Int) :: (b'.map Int.ofNat).reverse := by
        rw [hrew]
        simp
      have hw : l.Start + (encodeChar x).length ≤ l.Position := by
        rw [hst, hpos, blen_append, blen_single]
        omega
      rw [backup_unit l x _ hx hrew' hw]
      refine ⟨a, b', x :: c, 0,
        hva, fun u hu => hvb u (by simp [hu]), ?_, ?_, hst, ?_, by simp, by simp⟩
      · intro u hu
        rcases List.mem_cons.mp hu with hu | hu
        · subst hu
          exact hx
        · exact hvc u hu
      · simp only
        rw [hin]
        exact congrArg encodeList (by simp)
      · simp only
        rw [hpos, blen_append, blen_single]
        omega

/-- `Emit` preserves the invariant. -/
theorem inv_emit (t : Int) (l : L) (h : Inv l) : Inv (L.Emit t l) := by
  obtain ⟨a, b, c, k, hva, hvb, hvc, hin, hst, hpos, hrew, hk⟩ := h
  refine ⟨a ++ b, [], c, 0,
    ?_, by simp, hvc, ?_, ?_, ?_, by simp [L.Emit, runeStack.Clear], by simp⟩
  · intro u hu
    rcases List.mem_append.mp hu with hu | hu
    · exact hva u hu
    · exact hvb u hu
  · simp only [L.Emit]
    rw [hin]
    exact congrArg encodeList (by simp)
  · simp only [L.Emit]
    rw [hpos, blen_append]
  · simp only [L.Emit]
    rw [hpos, blen_append, blen_nil]
    omega

/-- `Ignore` preserves the invariant. -/
theorem inv_ignore (l : L) (h : Inv l) : Inv (L.Ignore l) := by
  obtain ⟨a, b, c, k, hva, hvb, hvc, hin, hst, hpos, hrew, hk⟩ := h
  refine ⟨a ++ b, [], c, 0,
    ?_, by simp, hvc, ?_, ?_, ?_, by simp [L.Ignore, runeStack.Clear], by simp⟩
  · intro u hu
    rcases List.mem_append.mp hu with hu | hu
    · exact hva u hu
    · exact hvb u hu
  · simp only [L.Ignore]
    rw [hin]
    exact congrArg encodeList (by simp)
  · simp only [L.Ignore]
    rw [hpos, blen_append]
  · simp only [L.Ignore]
    rw [hpos, blen_append, blen_nil]
    omega

/-- `IgnoreCharacter` under the specification's guard (the stack top is an
actually consumed, non-sentinel unit) preserves the invariant. -/
theorem inv_ignoreChar (l l' : L) (r : Int) (rest0 : runeStack)
    (hg : l.Rewind = r :: rest0) (hr : 0 ≤ r)
    (hsome : L.IgnoreCharacter l = some l') (h : Inv l) : Inv l' := by
  obtain ⟨a, b, c, k, hva, hvb, hvc, hin, hst, hpos, hrew, hk⟩ := h
  cases k with
  | succ k' =>
    rw [hrew, List.replicate_succ, List.cons_append] at hg
    injection hg with hg1 hg2
    rw [EOFToken] at hg1
    omega
  | zero =>
    rcases List.eq_nil_or_concat b with hb | ⟨b', x, hb⟩
    · subst hb
      rw [hrew] at hg
      simp at hg
    · rw [List.concat_eq_append] at hb
      subst hb
      have hx : ValidScalar x := hvb x (by simp)
      have hrew' : l.Rewind = (x : Int) :: (b'.map Int.ofNat).reverse := by
        rw [hrew]
        simp
      have hwx : runeLen (x : Int) = ((encodeChar x).length : Int) :=
        runeLen_encode x hx
      have hbx : blen (b' ++ [x]) = blen b' + (encodeChar x).length := by
        rw [blen_append, blen_single]
      have hlenIn : l.Input.length = blen (a ++ (b' ++ [x]) ++ c) := by
        rw [hin]
        rfl
      have hlenIn' : l.Input.length =
          blen a + blen b' + (encodeChar x).length + blen c := by
        rw [hlenIn, blen_append, blen_append, hbx]
        omega
      have hsplit : l.Input =
          encodeList (a ++ b') ++ (encodeChar x ++ encodeList c) := by
        rw [hin]
        simp [encodeList_append, encodeList, List.append_assoc]
      have htake : l.Input.take (blen a + blen b') = encodeList (a ++ b') := by
        rw [hsplit]
        rw [show blen a + blen b' = (encodeList (a ++ b')).length from by
          rw [← blen_append]; rfl]
        exact List.take_left _ _
      have hdrop : l.Input.drop l.Position = encodeList c := by
        have hsplit2 : l.Input =
            (encodeList (a ++ b') ++ encodeChar x) ++ encodeList c := by
          rw [hsplit, List.append_assoc]
        have hlen2 : l.Position =
            (encodeList (a ++ b') ++ encodeChar x).length := by
          rw [hpos, hbx]
          have : (encodeList (a ++ b')).length = blen a + blen b' := by
            rw [← blen_append]
            rfl
          simp [List.length_append, this]
          omega
        rw [hsplit2, hlen2, List.drop_left]
      simp only [L.IgnoreCharacter, hrew', runeStack.Pop, hwx] at hsome
      have htn : ((l.Position : Int) - ((encodeChar x).length : Nat)).toNat =
          blen a + blen b' := by
        rw [hpos, hbx]
        omega
      rw [if_pos ⟨by rw [hpos, hbx]; omega,
        by rw [htn]; omega,
        by omega⟩] at hsome
      have hl' : l' =
          { l with
            Rewind := (b'.map Int.ofNat).reverse
            Input := l.Input.take ((l.Position : Int) -
              ((encodeChar x).length : Nat)).toNat ++ l.Input.drop l.Position
            Position := ((l.Position : Int) -
              ((encodeChar x).length : Nat)).toNat } :=
        (Option.some_inj.mp hsome).symm
      subst hl'
      refine ⟨a, b', c, 0,
        hva, fun u hu => hvb u (by simp [hu]), hvc, ?_, hst, ?_, by simp, by simp⟩
      · simp only [htn, htake, hdrop]
        simp [encodeList_append]
      · simp only [htn]

/-- A handled `Error` preserves the invariant (only `Err` changes). -/
theorem inv_error (l l' : L) (e s : String)
    (hok : L.Error l e = ErrorResult.ok l' s) (h : Inv l) : Inv l' := by
  unfold L.Error at hok
  cases hh : l.ErrorHandler with
  | none =>
    rw [hh] at hok
    exact ErrorResult.noConfusion hok
  | some f =>
    rw [hh] at hok
    injection hok with h1 h2
    obtain ⟨a, b, c, k, hva, hvb, hvc, hin, hst, hpos, hrew, hk⟩ := h
    rw [← h1]
    exact ⟨a, b, c, k, hva, hvb, hvc, hin, hst, hpos, hrew, hk⟩

/-- Registering an error handler preserves the invariant. -/
theorem inv_setHandler (l : L) (hh : Option (String → Unit)) (h : Inv l) :
    Inv { l with ErrorHandler := hh } := by
  obtain ⟨a, b, c, k, hva, hvb, hvc, hin, hst, hpos, hrew, hk⟩ := h
  exact ⟨a, b, c, k, hva, hvb, hvc, hin, hst, hpos, hrew, hk⟩

/-- Every state reachable from a valid-UTF-8 input satisfies the
invariant. -/
theorem inv_reach (src : List Nat) (l : L) (hv : ValidUtf8 src)
    (hr : Reach src l) : Inv l := by
  induction hr with
  | new =>
    obtain ⟨cs, hcs, hsrc⟩ := hv
    rw [hsrc]
    exact inv_new cs hcs
  | next _ ih => exact inv_next _ ih
  | backup _ ih => exact inv_backup _ ih
  | emit t _ ih => exact inv_emit t _ ih
  | ignore _ ih => exact inv_ignore _ ih
  | ignoreChar r rest _ hrew hr0 hsome ih =>
    exact inv_ignoreChar _ _ r rest hrew hr0 hsome ih
  | error e s _ hok ih => exact inv_error _ _ e s hok ih
  | setHandler hh _ ih => exact inv_setHandler _ hh ih

/-- C3 counterexample: from the (valid, empty) input `""`, one `next()`
call — which consumes nothing — pushes the `EOFToken` sentinel, so in this
reachable state the rewind buffer holds one entry while zero input units
were consumed since the last boundary reset: the buffer contents do not
correspond 1:1 to the consumed units. -/
theorem c3_counterexample :
    Reach [] (L.Next (L.New [])).1 ∧
    (L.Next (L.New [])).1.Rewind ≠
      (decodeAll (L.Current (L.Next (L.New [])).1)).reverse := by
  refine ⟨Reach.next Reach.new, ?_⟩
  have h1 : (L.Next (L.New [])).1.Rewind = [EOFToken] := rfl
  have h2 : L.Current (L.Next (L.New [])).1 = [] := rfl
  rw [h1, h2, decodeAll]
  simp

/-- C3 amended: in every state reachable over valid UTF-8 input, the rewind
buffer is a (possibly empty) block of `EOFToken` sentinels — pushed by
`next()` at end of input without consuming — on top of exactly the units
consumed since the last boundary reset (the runes of `current()`), in
reverse order. -/
theorem c3_rewind_journal (src : List Nat) (l : L) (hv : ValidUtf8 src)
    (hr : Reach src l) :
    ∃ k, l.Rewind =
      List.replicate k EOFToken ++ (decodeAll (L.Current l)).reverse := by
  obtain ⟨a, b, c, k, hva, hvb, hvc, hin, hst, hpos, hrew, hk⟩ :=
    inv_reach src l hv hr
  refine ⟨k, ?_⟩
  have hsplit : l.Input = (encodeList a ++ encodeList b) ++ encodeList c := by
    rw [hin, encodeList_append, encodeList_append]
  have hcur : L.Current l = encodeList b := by
    unfold L.Current
    rw [hsplit, hpos, hst]
    rw [show blen a + blen b = (encodeList a ++ encodeList b).length from by
      simp [blen, List.length_append]]
    rw [List.take_left]
    rw [show blen a = (encodeList a).length from rfl]
    exact List.drop_left _ _
  rw [hcur, decodeAll_encodeList b hvb, hrew]

/-- C3 witness: the fresh lexer over the input `"a"` has an empty rewind
buffer matching the empty consumed prefix. -/
theorem c3_rewind_journal_witness :
    ∃ k, (L.New (encodeList [97])).Rewind =
      List.replicate k EOFToken ++
        (decodeAll (L.Current (L.New (encodeList [97])))).reverse :=
  c3_rewind_journal (encodeList [97]) (L.New (encodeList [97]))
    ⟨[97], by decide, rfl⟩ Reach.new

/-- C8 counterexample: consume `'a'` from the input `"a"`, then `next()`
once more at end of input (pushing the sentinel).  One input unit HAS been
consumed since the last lexeme boundary (`lexemeStart = 0`, `cursor = 1`),
satisfying the claim's guarded precondition, yet `ignoreLastUnit()` pops
the sentinel, computes width `runeLen(EOFToken) = -1`, and attempts the
slice `input[:cursor+1]` with `cursor+1 > len(input)` — an out-of-range
slice panic (`none`), not an excision. -/
theorem c8_counterexample :
    L.IgnoreCharacter (L.Next (L.Next (L.New [97])).1).1 = none ∧
    (L.Next (L.Next (L.New [97])).1).1.Start = 0 ∧
    (L.Next (L.Next (L.New [97])).1).1.Position = 1 := ⟨rfl, rfl, rfl⟩

/-- C8 amended: when the most recently pushed rewind entry is an actually
consumed unit — a rune of positive encoded width, with that width at most
the cursor and the cursor inside the input — `ignoreLastUnit()` pops it,
excises exactly the bytes `input[cursor-width : cursor]` from the input and
retreats the cursor by `width`.  (Under the claim's weaker precondition,
"at least one unit consumed since the boundary", the top entry can still be
the end-of-input sentinel and the code panics, per the counterexample.) -/
theorem c8_ignore_last (l : L) (r : Int) (rest : runeStack)
    (hrew : l.Rewind = r :: rest) (hpr : 0 < runeLen r)
    (hw : (runeLen r).toNat ≤ l.Position) (hpl : l.Position ≤ l.Input.length) :
    L.IgnoreCharacter l =
      some { l with
        Rewind := rest
        Input := l.Input.take (l.Position - (runeLen r).toNat) ++
          l.Input.drop l.Position
        Position := l.Position - (runeLen r).toNat } := by
  simp only [L.IgnoreCharacter, hrew, runeStack.Pop]
  rw [if_pos ⟨by omega, by omega, hpl⟩]
  have htn : ((l.Position : Int) - runeLen r).toNat =
      l.Position - (runeLen r).toNat := by omega
  rw [htn]

/-- C8 witness: after consuming `'a'` from `"ab"`, `ignoreLastUnit()`
excises that byte and retreats the cursor to 0. -/
theorem c8_ignore_last_witness :
    L.IgnoreCharacter (L.Next (L.New [97, 98])).1 =
      some { (L.Next (L.New [97, 98])).1 with
        Rewind := []
        Input := ((L.Next (L.New [97, 98])).1.Input.take
          ((L.Next (L.New [97, 98])).1.Position - (runeLen 97).toNat)) ++
          (L.Next (L.New [97, 98])).1.Input.drop
            (L.Next (L.New [97, 98])).1.Position
        Position := (L.Next (L.New [97, 98])).1.Position -
          (runeLen 97).toNat } :=
  c8_ignore_last (L.Next (L.New [97, 98])).1 97 [] rfl (by decide) (by decide)
    (by decide)

end GoLexer
